import Mathlib

/-!
Verification of the scoped-vec library.

The Rust type ScopedVec<T> is a pair of reference-counted, reader/writer-locked
cells: `inner: Arc<RwLock<Vec<T>>>` (the node's own elements) and
`children: Arc<RwLock<Vec<ScopedVec<T>>>>` (handles to child nodes).  We embed
it shallowly as a heap of nodes addressed by natural-number identifiers: a
handle is the identity of the node its two Arcs point to, and cloning a handle
(the derived Clone, which clones the Arcs) yields the same identifier.  The
heap is a list of nodes; allocation appends at the end, so a node created later
always has a larger identifier than every node existing at that time.

Operations are state transformers translated from src/lib.rs:
  ScopedVec::new    — allocate a fresh empty node, return its identifier;
  ScopedVec::scope  — allocate a fresh empty node, append its handle to the
                      parent's children cell, return the new handle;
  ScopedVec::push   — append a value to the node's inner cell;
  ScopedVecIterator — yields the node's inner elements chained with the
                      flattened iterators of its children (here: the full list
                      the iterator yields, computed with a fuel argument whose
                      adequacy over well-formed heaps is proved below);
  ScopedVec::contains — any of the iterator with an equality test.
-/

namespace ScopedVecLib

/-- The node pointed to by a ScopedVec<T> handle: the contents of its `inner`
cell (own elements, in push order) and of its `children` cell (handles to the
child nodes, in scope-creation order).  Child handles are node identifiers into
the heap. -/
structure ScopedVec (T : Type) where
  inner : List T
  children : List Nat
deriving DecidableEq

/-- The heap: every node allocated so far, indexed by identifier. -/
structure State (T : Type) where
  nodes : List (ScopedVec T)
deriving DecidableEq

variable {T : Type}

/-- The contents of the `children` cell of node `h` (empty for an unallocated
identifier; real handles always point to allocated nodes). -/
def childrenOf (s : State T) (h : Nat) : List Nat :=
  match s.nodes[h]? with
  | some n => n.children
  | none => []

/-- The contents of the `inner` cell of node `h`. -/
def elemsOf (s : State T) (h : Nat) : List T :=
  match s.nodes[h]? with
  | some n => n.inner
  | none => []

/-- In-place update of one node of the heap (no-op when the index is out of
range); models a write through a handle's RwLock cell. -/
def modifyNode : List (ScopedVec T) → Nat → (ScopedVec T → ScopedVec T) → List (ScopedVec T)
  | [], _, _ => []
  | n :: rest, 0, f => f n :: rest
  | n :: rest, k + 1, f => n :: modifyNode rest k f

/-- ScopedVec::new — `Self { inner: Arc::new(RwLock::default()), children: Arc::new(RwLock::default()) }`:
allocate a fresh node with empty elements and empty children, return its handle. -/
def ScopedVec.new (s : State T) : State T × Nat :=
  ({ nodes := s.nodes ++ [⟨[], []⟩] }, s.nodes.length)

/-- ScopedVec::push — `self.inner.write().unwrap().push(val)`: append `v` to
the inner cell of the node behind handle `h`. -/
def ScopedVec.push (s : State T) (h : Nat) (v : T) : State T :=
  { nodes := modifyNode s.nodes h (fun n => { n with inner := n.inner ++ [v] }) }

/-- ScopedVec::scope — `let new = ScopedVec::new(); self.children.write().unwrap().push(new.clone()); new`:
allocate a fresh empty node, append a clone of its handle to `h`'s children
cell, and return the new handle. -/
def ScopedVec.scope (s : State T) (h : Nat) : State T × Nat :=
  let p := ScopedVec.new s
  ({ nodes := modifyNode p.1.nodes h (fun n => { n with children := n.children ++ [p.2] }) }, p.2)

/-- The derived Clone of ScopedVec clones the two Arcs, so the cloned handle
aliases exactly the same node: in the heap embedding it is the same identifier. -/
def ScopedVec.clone (h : Nat) : Nat := h

/-- The sequence yielded by ScopedVecIterator — `guards.inner.iter().chain(guards.children.iter().map(ScopedVec::iter).flatten())`:
the node's own elements followed by the flattened traversals of its children.
The extra fuel argument bounds the recursion depth; `ScopedVec.iter` below
instantiates it with the heap size, which is proved sufficient for well-formed
heaps (`iterAux_congr`). -/
def iterAux (s : State T) : Nat → Nat → List T
  | 0, _ => []
  | fuel + 1, h =>
    match s.nodes[h]? with
    | none => []
    | some n => n.inner ++ (n.children.map (iterAux s fuel)).flatten

/-- ScopedVec::iter — the full sequence of elements the iterator yields for
handle `h`. -/
def ScopedVec.iter (s : State T) (h : Nat) : List T :=
  iterAux s s.nodes.length h

/-- ScopedVec::contains — `self.iter().any(|f| *f == *val)`. -/
def ScopedVec.contains [BEq T] (s : State T) (h : Nat) (v : T) : Bool :=
  (ScopedVec.iter s h).any (fun f => f == v)

/-- One client-visible mutation: creating a fresh root, pushing through a
handle, or scoping a handle. -/
inductive Op (T : Type) where
  | newRoot : Op T
  | pushOp (h : Nat) (v : T) : Op T
  | scopeOp (h : Nat) : Op T

/-- Apply one operation.  A Rust handle is a pair of Arcs and hence always
references an allocated node, so traces only apply push/scope through valid
identifiers (an out-of-range identifier corresponds to no obtainable handle
and leaves the heap unchanged). -/
def step (s : State T) : Op T → State T
  | Op.newRoot => (ScopedVec.new s).1
  | Op.pushOp h v => if h < s.nodes.length then ScopedVec.push s h v else s
  | Op.scopeOp h => if h < s.nodes.length then (ScopedVec.scope s h).1 else s

/-- Run a sequence of operations from the empty heap. -/
def run (ops : List (Op T)) : State T := ops.foldl step ⟨[]⟩

/-- A heap an actual program can be in: produced by some sequence of
new/push/scope operations. -/
def Reachable (s : State T) : Prop := ∃ ops, run ops = s

/-- Structural well-formedness of the heap, maintained by every operation:
every child identifier is strictly larger than its parent's (children are
allocated after their parent) and in range, and no node is the child of two
different parents (scope appends each freshly created node to exactly one
children list). -/
def Inv (s : State T) : Prop :=
  (∀ i < s.nodes.length, ∀ c ∈ childrenOf s i, i < c ∧ c < s.nodes.length) ∧
  (∀ i < s.nodes.length, ∀ j < s.nodes.length, ∀ c ∈ childrenOf s i,
    c ∈ childrenOf s j → i = j)

instance (s : State T) : Decidable (Inv s) := by
  unfold Inv
  infer_instance

/-- `Desc s r m`: node `m` is `r` itself or a descendant of `r`, following
children links downward. -/
inductive Desc (s : State T) (r : Nat) : Nat → Prop where
  | refl : Desc s r r
  | child {m c : Nat} : Desc s r m → c ∈ childrenOf s m → Desc s r c

/-- A root: an allocated node that no children cell references (the nodes
created by ScopedVec::new, as opposed to ScopedVec::scope). -/
def IsRoot (s : State T) (r : Nat) : Prop :=
  r < s.nodes.length ∧ ∀ i < s.nodes.length, r ∉ childrenOf s i

instance (s : State T) (r : Nat) : Decidable (IsRoot s r) := by
  unfold IsRoot
  infer_instance

/-- The visible sequence of a handle, as the specification defines it: the
elements of its node in insertion order, followed by the concatenation, in
child-insertion order, of the visible sequences of its children.  Stated as an
inductive predicate so that totality of the recursive definition is a theorem
rather than an assumption. -/
inductive VisibleSeq (s : State T) : Nat → List T → Prop where
  | mk {h : Nat} {n : ScopedVec T} {lss : List (List T)} :
      s.nodes[h]? = some n →
      lss.length = n.children.length →
      (∀ (i c : Nat) (l : List T), n.children[i]? = some c → lss[i]? = some l → VisibleSeq s c l) →
      VisibleSeq s h (n.inner ++ lss.flatten)

/-- The operation sequence of the crate's doc example: a root pushes 3,
scope 1 of the root pushes 4, a nested scope 2 of scope 1 pushes 5, and a
second scope 3 of the root pushes 6. -/
def exOps : List (Op Nat) :=
  [Op.newRoot, Op.pushOp 0 3, Op.scopeOp 0, Op.pushOp 1 4,
   Op.scopeOp 1, Op.pushOp 2 5, Op.scopeOp 0, Op.pushOp 3 6]

/-- The heap after the doc-example operations. -/
def exState : State Nat := run exOps

/-- The doc-example heap extended with a second, independent root (node 4)
that pushes 7. -/
def exOps2 : List (Op Nat) := exOps ++ [Op.newRoot, Op.pushOp 4 7]

/-- The heap with two independent roots. -/
def exState2 : State Nat := run exOps2

/-! ### Basic lemmas about the heap primitives -/

/-- Helper: an index yielding an element is in range. -/
theorem lt_length_of_getElem? {α : Type _} {l : List α} {n : Nat} {a : α}
    (h : l[n]? = some a) : n < l.length := by
  by_contra hc
  rw [getElem?_neg l n hc] at h
  cases h

theorem modifyNode_length (l : List (ScopedVec T)) (h : Nat) (f : ScopedVec T → ScopedVec T) :
    (modifyNode l h f).length = l.length := by
  induction l generalizing h with
  | nil => rfl
  | cons x xs ih =>
    cases h with
    | zero => rfl
    | succ k => simpa [modifyNode] using ih k

theorem modifyNode_getElem? (l : List (ScopedVec T)) (h : Nat) (f : ScopedVec T → ScopedVec T)
    (i : Nat) : (modifyNode l h f)[i]? = if i = h then l[i]?.map f else l[i]? := by
  induction l generalizing h i with
  | nil => simp [modifyNode]
  | cons x xs ih =>
    cases h with
    | zero =>
      cases i with
      | zero => simp [modifyNode]
      | succ j => simp [modifyNode]
    | succ k =>
      cases i with
      | zero => simp [modifyNode]
      | succ j => simpa [modifyNode, Nat.succ_inj] using ih k j

theorem childrenOf_of_getElem? {s : State T} {h : Nat} {n : ScopedVec T}
    (hg : s.nodes[h]? = some n) : childrenOf s h = n.children := by
  unfold childrenOf
  rw [hg]

theorem childrenOf_of_none {s : State T} {h : Nat}
    (hg : s.nodes[h]? = none) : childrenOf s h = [] := by
  unfold childrenOf
  rw [hg]

theorem elemsOf_of_getElem? {s : State T} {h : Nat} {n : ScopedVec T}
    (hg : s.nodes[h]? = some n) : elemsOf s h = n.inner := by
  unfold elemsOf
  rw [hg]

theorem elemsOf_of_none {s : State T} {h : Nat}
    (hg : s.nodes[h]? = none) : elemsOf s h = [] := by
  unfold elemsOf
  rw [hg]

theorem mem_childrenOf_iff {s : State T} {h c : Nat} :
    c ∈ childrenOf s h ↔ ∃ n, s.nodes[h]? = some n ∧ c ∈ n.children := by
  unfold childrenOf
  cases hg : s.nodes[h]? with
  | none => simp
  | some n => simp

theorem lt_length_of_mem_childrenOf {s : State T} {h c : Nat}
    (hc : c ∈ childrenOf s h) : h < s.nodes.length := by
  rcases mem_childrenOf_iff.1 hc with ⟨n, hg, _⟩
  exact lt_length_of_getElem? hg

/-! ### Effect lemmas for push, scope and new -/

theorem push_length (s : State T) (h : Nat) (v : T) :
    (ScopedVec.push s h v).nodes.length = s.nodes.length := by
  simp [ScopedVec.push, modifyNode_length]

theorem push_getElem? (s : State T) (h : Nat) (v : T) (i : Nat) :
    (ScopedVec.push s h v).nodes[i]? =
      if i = h then s.nodes[i]?.map (fun n => { n with inner := n.inner ++ [v] })
      else s.nodes[i]? := by
  simp [ScopedVec.push, modifyNode_getElem?]

theorem childrenOf_push (s : State T) (h : Nat) (v : T) (i : Nat) :
    childrenOf (ScopedVec.push s h v) i = childrenOf s i := by
  unfold childrenOf
  rw [push_getElem?]
  by_cases hi : i = h
  · simp only [hi, if_pos rfl]
    cases s.nodes[h]? <;> simp
  · rw [if_neg hi]

theorem elemsOf_push_self (s : State T) (h : Nat) (v : T) (hh : h < s.nodes.length) :
    elemsOf (ScopedVec.push s h v) h = elemsOf s h ++ [v] := by
  unfold elemsOf
  rw [push_getElem?, if_pos rfl]
  rw [List.getElem?_eq_getElem hh]
  simp

theorem elemsOf_push_other (s : State T) (h : Nat) (v : T) (i : Nat) (hi : i ≠ h) :
    elemsOf (ScopedVec.push s h v) i = elemsOf s i := by
  unfold elemsOf
  rw [push_getElem?, if_neg hi]

theorem new_length (s : State T) : (ScopedVec.new s).1.nodes.length = s.nodes.length + 1 := by
  simp [ScopedVec.new]

theorem new_getElem?_old (s : State T) (i : Nat) (hi : i < s.nodes.length) :
    (ScopedVec.new s).1.nodes[i]? = s.nodes[i]? := by
  simp [ScopedVec.new, List.getElem?_append_left hi]

theorem new_getElem?_fresh (s : State T) :
    (ScopedVec.new s).1.nodes[s.nodes.length]? = some ⟨[], []⟩ := by
  simp [ScopedVec.new, List.getElem?_concat_length]

theorem scope_length (s : State T) (h : Nat) :
    (ScopedVec.scope s h).1.nodes.length = s.nodes.length + 1 := by
  simp [ScopedVec.scope, modifyNode_length, ScopedVec.new]

theorem scope_handle (s : State T) (h : Nat) : (ScopedVec.scope s h).2 = s.nodes.length := rfl

theorem scope_getElem? (s : State T) (h : Nat) (i : Nat) :
    (ScopedVec.scope s h).1.nodes[i]? =
      if i = h then ((ScopedVec.new s).1.nodes[i]?).map
        (fun n => { n with children := n.children ++ [s.nodes.length] })
      else (ScopedVec.new s).1.nodes[i]? := by
  simp [ScopedVec.scope, modifyNode_getElem?, ScopedVec.new]

theorem childrenOf_new (s : State T) (i : Nat) :
    childrenOf (ScopedVec.new s).1 i = childrenOf s i := by
  unfold childrenOf
  rcases Nat.lt_trichotomy i s.nodes.length with hi | hi | hi
  · rw [new_getElem?_old s i hi]
  · rw [hi, new_getElem?_fresh, getElem?_neg s.nodes s.nodes.length (by omega)]
  · rw [getElem?_neg s.nodes i (by omega),
      getElem?_neg (ScopedVec.new s).1.nodes i (by rw [new_length]; omega)]

theorem elemsOf_new (s : State T) (i : Nat) :
    elemsOf (ScopedVec.new s).1 i = elemsOf s i := by
  unfold elemsOf
  rcases Nat.lt_trichotomy i s.nodes.length with hi | hi | hi
  · rw [new_getElem?_old s i hi]
  · rw [hi, new_getElem?_fresh, getElem?_neg s.nodes s.nodes.length (by omega)]
  · rw [getElem?_neg s.nodes i (by omega),
      getElem?_neg (ScopedVec.new s).1.nodes i (by rw [new_length]; omega)]

theorem childrenOf_scope_self (s : State T) (h : Nat) (hh : h < s.nodes.length) :
    childrenOf (ScopedVec.scope s h).1 h = childrenOf s h ++ [s.nodes.length] := by
  unfold childrenOf
  rw [scope_getElem?, if_pos rfl, new_getElem?_old s h hh,
    List.getElem?_eq_getElem hh]
  simp

theorem childrenOf_scope_other (s : State T) (h : Nat) (i : Nat) (hi : i ≠ h) :
    childrenOf (ScopedVec.scope s h).1 i = childrenOf s i := by
  have : (ScopedVec.scope s h).1.nodes[i]? = (ScopedVec.new s).1.nodes[i]? := by
    rw [scope_getElem?, if_neg hi]
  unfold childrenOf
  rw [this]
  have := childrenOf_new s i
  unfold childrenOf at this
  exact this

theorem elemsOf_scope (s : State T) (h : Nat) (i : Nat) :
    elemsOf (ScopedVec.scope s h).1 i = elemsOf s i := by
  rw [show elemsOf s i = elemsOf (ScopedVec.new s).1 i from (elemsOf_new s i).symm]
  unfold elemsOf
  rw [scope_getElem?]
  by_cases hi : i = h
  · rw [if_pos hi]
    cases (ScopedVec.new s).1.nodes[i]? with
    | none => rfl
    | some n => rfl
  · rw [if_neg hi]

/-! ### Consequences of the invariant -/

theorem Inv.child_bounds {s : State T} (hInv : Inv s) {h c : Nat}
    (hc : c ∈ childrenOf s h) : h < c ∧ c < s.nodes.length :=
  hInv.1 h (lt_length_of_mem_childrenOf hc) c hc

theorem Inv.parent_uniq {s : State T} (hInv : Inv s) {i j c : Nat}
    (h1 : c ∈ childrenOf s i) (h2 : c ∈ childrenOf s j) : i = j :=
  hInv.2 i (lt_length_of_mem_childrenOf h1) j (lt_length_of_mem_childrenOf h2) c h1 h2

/-! ### The descendant relation -/

theorem Desc.trans {s : State T} {a b c : Nat} (hab : Desc s a b) (hbc : Desc s b c) :
    Desc s a c := by
  induction hbc with
  | refl => exact hab
  | child _ hc ih => exact Desc.child ih hc

theorem desc_of_child {s : State T} {a c : Nat} (hc : c ∈ childrenOf s a) : Desc s a c :=
  Desc.child Desc.refl hc

theorem desc_le {s : State T} (hInv : Inv s) {a b : Nat} (hd : Desc s a b) : a ≤ b := by
  induction hd with
  | refl => exact Nat.le_refl a
  | child _ hc ih => exact Nat.le_of_lt (Nat.lt_of_le_of_lt ih (hInv.child_bounds hc).1)

theorem desc_lt_length {s : State T} (hInv : Inv s) {r m : Nat} (hr : r < s.nodes.length)
    (hd : Desc s r m) : m < s.nodes.length := by
  induction hd with
  | refl => exact hr
  | child _ hc _ => exact (hInv.child_bounds hc).2

theorem desc_parent {s : State T} {a b : Nat} (hd : Desc s a b) (hne : a ≠ b) :
    ∃ p, Desc s a p ∧ b ∈ childrenOf s p := by
  cases hd with
  | refl => exact absurd rfl hne
  | child hm hc => exact ⟨_, hm, hc⟩

theorem desc_chain {s : State T} (hInv : Inv s) {a b m : Nat}
    (ham : Desc s a m) (hbm : Desc s b m) : Desc s a b ∨ Desc s b a := by
  revert hbm
  induction ham with
  | refl => exact fun hbm => Or.inr hbm
  | child hd hc ih =>
    intro hbc
    cases hbc with
    | refl => exact Or.inl (Desc.child hd hc)
    | child hd2 hc2 =>
      have heq := hInv.parent_uniq hc hc2
      exact ih (heq ▸ hd2)

theorem desc_children_congr {s s' : State T}
    (hch : ∀ i, childrenOf s' i = childrenOf s i) {r m : Nat} :
    Desc s' r m ↔ Desc s r m := by
  constructor
  · intro hd
    induction hd with
    | refl => exact Desc.refl
    | child _ hc ih => exact Desc.child ih ((hch _) ▸ hc)
  · intro hd
    induction hd with
    | refl => exact Desc.refl
    | child _ hc ih => exact Desc.child ih ((hch _).symm ▸ hc)

theorem desc_mono {s s' : State T}
    (hch : ∀ i c, c ∈ childrenOf s i → c ∈ childrenOf s' i) {r m : Nat}
    (hd : Desc s r m) : Desc s' r m := by
  induction hd with
  | refl => exact Desc.refl
  | child _ hc ih => exact Desc.child ih (hch _ _ hc)

theorem desc_push {s : State T} {q r m : Nat} {v : T} :
    Desc (ScopedVec.push s q v) r m ↔ Desc s r m :=
  desc_children_congr (fun i => childrenOf_push s q v i)

theorem desc_scope {s : State T} {q r : Nat} (hq : q < s.nodes.length)
    (hrq : ¬ Desc s r q) (m : Nat) :
    Desc (ScopedVec.scope s q).1 r m ↔ Desc s r m := by
  constructor
  · intro hd
    induction hd with
    | refl => exact Desc.refl
    | child hd0 hc ih =>
      rename_i m' c
      by_cases hm : m' = q
      · exact absurd (hm ▸ ih) hrq
      · rw [childrenOf_scope_other s q m' hm] at hc
        exact Desc.child ih hc
  · intro hd
    refine desc_mono (fun i c hc => ?_) hd
    by_cases hi : i = q
    · subst hi
      rw [childrenOf_scope_self s i hq]
      exact List.mem_append_left _ hc
    · rw [childrenOf_scope_other s q i hi]
      exact hc

/-! ### The traversal: fuel adequacy, unfolding, and frame lemmas -/

theorem iterAux_of_none {s : State T} {h : Nat} (hg : s.nodes[h]? = none) (f : Nat) :
    iterAux s f h = [] := by
  cases f with
  | zero => rfl
  | succ k => simp [iterAux, hg]

theorem iterAux_congr {s : State T} (hInv : Inv s) :
    ∀ f1 f2 h, s.nodes.length - h ≤ f1 → s.nodes.length - h ≤ f2 →
      iterAux s f1 h = iterAux s f2 h := by
  intro f1
  induction f1 with
  | zero =>
    intro f2 h h1 _
    have hg : s.nodes[h]? = none := getElem?_neg s.nodes h (by omega)
    rw [iterAux, iterAux_of_none hg]
  | succ a ih =>
    intro f2 h h1 h2
    cases f2 with
    | zero =>
      have hg : s.nodes[h]? = none := getElem?_neg s.nodes h (by omega)
      rw [iterAux, iterAux_of_none hg]
    | succ b =>
      cases hg : s.nodes[h]? with
      | none => simp [iterAux, hg]
      | some n =>
        have hh : h < s.nodes.length := lt_length_of_getElem? hg
        simp only [iterAux, hg]
        refine congrArg (n.inner ++ ·) (congrArg List.flatten ?_)
        refine List.map_congr_left (fun c hc => ?_)
        have hcc : c ∈ childrenOf s h := by
          rw [childrenOf_of_getElem? hg]; exact hc
        have hb := hInv.child_bounds hcc
        exact ih a c (by omega) (by omega) ▸ ih b c (by omega) (by omega) ▸ rfl

theorem iter_of_none {s : State T} {h : Nat} (hg : s.nodes[h]? = none) :
    ScopedVec.iter s h = [] :=
  iterAux_of_none hg s.nodes.length

theorem iter_unfold {s : State T} (hInv : Inv s) {h : Nat} {n : ScopedVec T}
    (hg : s.nodes[h]? = some n) :
    ScopedVec.iter s h = n.inner ++ (n.children.map (ScopedVec.iter s)).flatten := by
  have hh : h < s.nodes.length := lt_length_of_getElem? hg
  obtain ⟨k, hk⟩ : ∃ k, s.nodes.length = k + 1 := ⟨s.nodes.length - 1, by omega⟩
  rw [ScopedVec.iter]
  rw [hk, iterAux]
  simp only [hg]
  refine congrArg (n.inner ++ ·) (congrArg List.flatten ?_)
  refine List.map_congr_left (fun c hc => ?_)
  have hcc : c ∈ childrenOf s h := by
    rw [childrenOf_of_getElem? hg]; exact hc
  have hb := hInv.child_bounds hcc
  rw [ScopedVec.iter]
  exact iterAux_congr hInv k s.nodes.length c (by omega) (by omega)

theorem iterAux_eq_of_agree {s s' : State T} :
    ∀ (f r : Nat), (∀ m, Desc s' r m → s'.nodes[m]? = s.nodes[m]?) →
      iterAux s' f r = iterAux s f r := by
  intro f
  induction f with
  | zero => intro r _; rfl
  | succ a ih =>
    intro r hagree
    have hr := hagree r Desc.refl
    cases hg : s'.nodes[r]? with
    | none =>
      rw [iterAux_of_none hg, iterAux_of_none (hg ▸ hr.symm)]
    | some n =>
      have hg2 : s.nodes[r]? = some n := by rw [← hr, hg]
      simp only [iterAux, hg, hg2]
      refine congrArg (n.inner ++ ·) (congrArg List.flatten ?_)
      refine List.map_congr_left (fun c hc => ?_)
      have hcc : c ∈ childrenOf s' r := by
        rw [childrenOf_of_getElem? hg]; exact hc
      exact ih c (fun m hm => hagree m ((desc_of_child hcc).trans hm))

theorem iter_push_frame {s : State T} {q c : Nat} (v : T)
    (hq : ¬ Desc s c q) :
    ScopedVec.iter (ScopedVec.push s q v) c = ScopedVec.iter s c := by
  have hagree : ∀ m, Desc (ScopedVec.push s q v) c m →
      (ScopedVec.push s q v).nodes[m]? = s.nodes[m]? := by
    intro m hm
    have hm2 : Desc s c m := desc_push.1 hm
    have hmq : m ≠ q := fun he => hq (he ▸ hm2)
    rw [push_getElem?, if_neg hmq]
  simp only [ScopedVec.iter, push_length]
  exact iterAux_eq_of_agree s.nodes.length c hagree

theorem iter_scope_frame {s : State T} (hInv : Inv s) {q c : Nat}
    (hqlen : q < s.nodes.length) (hclen : c < s.nodes.length) (hq : ¬ Desc s c q) :
    ScopedVec.iter (ScopedVec.scope s q).1 c = ScopedVec.iter s c := by
  have hagree : ∀ m, Desc (ScopedVec.scope s q).1 c m →
      (ScopedVec.scope s q).1.nodes[m]? = s.nodes[m]? := by
    intro m hm
    have hm2 : Desc s c m := (desc_scope hqlen hq m).1 hm
    have hmq : m ≠ q := fun he => hq (he ▸ hm2)
    have hmlen : m < s.nodes.length := desc_lt_length hInv hclen hm2
    rw [scope_getElem?, if_neg hmq, new_getElem?_old s m hmlen]
  simp only [ScopedVec.iter, scope_length]
  rw [iterAux_eq_of_agree (s.nodes.length + 1) c hagree]
  exact iterAux_congr hInv (s.nodes.length + 1) s.nodes.length c (by omega) (by omega)

/-! ### Membership in the traversal -/

theorem mem_of_getElem?_eq_some {α : Type _} {l : List α} {n : Nat} {a : α}
    (h : l[n]? = some a) : a ∈ l := by
  have hn : n < l.length := lt_length_of_getElem? h
  rw [List.getElem?_eq_getElem hn] at h
  obtain rfl : l[n] = a := Option.some.inj h
  exact List.getElem_mem hn

theorem mem_iterAux_imp {s : State T} {v : T} :
    ∀ f h, v ∈ iterAux s f h → ∃ m, Desc s h m ∧ v ∈ elemsOf s m := by
  intro f
  induction f with
  | zero =>
    intro h hv
    simp [iterAux] at hv
  | succ a ih =>
    intro h hv
    cases hg : s.nodes[h]? with
    | none =>
      rw [iterAux_of_none hg] at hv
      cases hv
    | some n =>
      simp only [iterAux, hg, List.mem_append] at hv
      rcases hv with hv | hv
      · exact ⟨h, Desc.refl, by rw [elemsOf_of_getElem? hg]; exact hv⟩
      · rcases List.mem_flatten.1 hv with ⟨l, hl, hvl⟩
        rcases List.mem_map.1 hl with ⟨c, hcc, rfl⟩
        rcases ih c hvl with ⟨m, hdm, hvm⟩
        have hhc : Desc s h c :=
          desc_of_child (by rw [childrenOf_of_getElem? hg]; exact hcc)
        exact ⟨m, hhc.trans hdm, hvm⟩

theorem mem_iter_imp {s : State T} {v : T} {h : Nat} (hv : v ∈ ScopedVec.iter s h) :
    ∃ m, Desc s h m ∧ v ∈ elemsOf s m :=
  mem_iterAux_imp s.nodes.length h hv

theorem iter_sub_of_desc {s : State T} (hInv : Inv s) {h c : Nat} (hd : Desc s h c) :
    ∀ v ∈ ScopedVec.iter s c, v ∈ ScopedVec.iter s h := by
  induction hd with
  | refl => exact fun v hv => hv
  | child hd0 hc ih =>
    intro v hv
    rcases mem_childrenOf_iff.1 hc with ⟨n, hg, hcn⟩
    apply ih
    rw [iter_unfold hInv hg]
    refine List.mem_append_right _ (List.mem_flatten.2 ⟨ScopedVec.iter s _, ?_, hv⟩)
    exact List.mem_map_of_mem _ hcn

theorem elems_mem_iter {s : State T} (hInv : Inv s) {h m : Nat} {v : T}
    (hd : Desc s h m) (hv : v ∈ elemsOf s m) : v ∈ ScopedVec.iter s h := by
  have hself : v ∈ ScopedVec.iter s m := by
    cases hg : s.nodes[m]? with
    | none =>
      rw [elemsOf_of_none hg] at hv
      cases hv
    | some n =>
      rw [iter_unfold hInv hg]
      rw [elemsOf_of_getElem? hg] at hv
      exact List.mem_append_left _ hv
  exact iter_sub_of_desc hInv hd v hself

/-! ### The traversal realises the visible sequence of the specification -/

theorem visibleSeq_iter_aux {s : State T} (hInv : Inv s) :
    ∀ d h, s.nodes.length - h ≤ d → h < s.nodes.length →
      VisibleSeq s h (ScopedVec.iter s h) := by
  intro d
  induction d with
  | zero =>
    intro h h1 h2
    omega
  | succ a ih =>
    intro h h1 h2
    obtain ⟨n, hg⟩ : ∃ n, s.nodes[h]? = some n := ⟨_, List.getElem?_eq_getElem h2⟩
    rw [iter_unfold hInv hg]
    refine VisibleSeq.mk hg (by simp) ?_
    intro i c l hci hli
    have hl : l = ScopedVec.iter s c := by
      rw [List.getElem?_map (ScopedVec.iter s) n.children i, hci] at hli
      exact (Option.some.inj hli).symm
    have hcmem : c ∈ n.children := mem_of_getElem?_eq_some hci
    have hcc : c ∈ childrenOf s h := by
      rw [childrenOf_of_getElem? hg]; exact hcmem
    have hb := hInv.child_bounds hcc
    rw [hl]
    exact ih c (by omega) hb.2

theorem visibleSeq_iter {s : State T} (hInv : Inv s) {h : Nat}
    (hh : h < s.nodes.length) : VisibleSeq s h (ScopedVec.iter s h) :=
  visibleSeq_iter_aux hInv s.nodes.length h (by omega) hh

theorem visibleSeq_unique {s : State T} (hInv : Inv s) {h : Nat} {l : List T}
    (hv : VisibleSeq s h l) : l = ScopedVec.iter s h := by
  induction hv with
  | mk hg hlen hrec ih =>
    rename_i h0 n lss
    have hlss : lss = n.children.map (ScopedVec.iter s) := by
      apply List.ext_getElem?
      intro i
      rw [List.getElem?_map (ScopedVec.iter s) n.children i]
      cases hci : n.children[i]? with
      | none =>
        have hi : n.children.length ≤ i := List.getElem?_eq_none_iff.1 hci
        exact List.getElem?_eq_none_iff.2 (by omega)
      | some c =>
        have hi : i < n.children.length := lt_length_of_getElem? hci
        obtain ⟨l0, hl0⟩ : ∃ l0, lss[i]? = some l0 :=
          ⟨_, List.getElem?_eq_getElem (by omega)⟩
        rw [hl0, Option.map_some']
        exact congrArg some (ih i c l0 hci hl0)
    rw [hlss]
    exact (iter_unfold hInv hg).symm

/-! ### Every reachable heap is well-formed -/

theorem inv_empty : Inv (⟨[]⟩ : State T) := by
  constructor
  · intro i hi
    simp at hi
  · intro i hi
    simp at hi

theorem inv_new {s : State T} (hInv : Inv s) : Inv (ScopedVec.new s).1 := by
  constructor
  · intro i _ c hc
    rw [childrenOf_new] at hc
    have hb := hInv.child_bounds hc
    rw [new_length]
    omega
  · intro i _ j _ c hc1 hc2
    rw [childrenOf_new] at hc1 hc2
    exact hInv.parent_uniq hc1 hc2

theorem inv_push {s : State T} (hInv : Inv s) (h : Nat) (v : T) :
    Inv (ScopedVec.push s h v) := by
  constructor
  · intro i _ c hc
    rw [childrenOf_push] at hc
    have hb := hInv.child_bounds hc
    rw [push_length]
    omega
  · intro i _ j _ c hc1 hc2
    rw [childrenOf_push] at hc1 hc2
    exact hInv.parent_uniq hc1 hc2

theorem inv_scope {s : State T} (hInv : Inv s) {h : Nat} (hh : h < s.nodes.length) :
    Inv (ScopedVec.scope s h).1 := by
  constructor
  · intro i _ c hc
    rw [scope_length]
    by_cases hi : i = h
    · rw [hi, childrenOf_scope_self s h hh, List.mem_append] at hc
      rcases hc with hc | hc
      · have hb := hInv.child_bounds hc
        omega
      · have : c = s.nodes.length := List.mem_singleton.1 hc
        omega
    · rw [childrenOf_scope_other s h i hi] at hc
      have hb := hInv.child_bounds hc
      omega
  · intro i _ j _ c hc1 hc2
    by_cases hcl : c = s.nodes.length
    · have hmem : ∀ k, c ∈ childrenOf (ScopedVec.scope s h).1 k → k = h := by
        intro k hk
        by_contra hkh
        rw [childrenOf_scope_other s h k hkh] at hk
        have hb := hInv.child_bounds hk
        omega
      rw [hmem i hc1, hmem j hc2]
    · have hmem : ∀ k, c ∈ childrenOf (ScopedVec.scope s h).1 k → c ∈ childrenOf s k := by
        intro k hk
        by_cases hkh : k = h
        · rw [hkh, childrenOf_scope_self s h hh, List.mem_append] at hk
          rcases hk with hk | hk
          · exact hkh ▸ hk
          · exact absurd (List.mem_singleton.1 hk) hcl
        · rw [childrenOf_scope_other s h k hkh] at hk
          exact hk
      exact hInv.parent_uniq (hmem i hc1) (hmem j hc2)

theorem inv_step {s : State T} (hInv : Inv s) (op : Op T) : Inv (step s op) := by
  cases op with
  | newRoot => exact inv_new hInv
  | pushOp h v =>
    rw [step]
    by_cases hh : h < s.nodes.length
    · rw [if_pos hh]
      exact inv_push hInv h v
    · rw [if_neg hh]
      exact hInv
  | scopeOp h =>
    rw [step]
    by_cases hh : h < s.nodes.length
    · rw [if_pos hh]
      exact inv_scope hInv hh
    · rw [if_neg hh]
      exact hInv

theorem inv_foldl : ∀ (ops : List (Op T)) (s : State T), Inv s → Inv (List.foldl step s ops) := by
  intro ops
  induction ops with
  | nil => exact fun s h => h
  | cons op rest ih => exact fun s h => ih (step s op) (inv_step h op)

theorem reachable_inv {s : State T} (hr : Reachable s) : Inv s := by
  rcases hr with ⟨ops, rfl⟩
  exact inv_foldl ops ⟨[]⟩ inv_empty

/-! ### Roots stay roots, and distinct subtrees are disjoint -/

theorem not_mem_childrenOf_of_isRoot {s : State T} {r : Nat} (hr : IsRoot s r) :
    ∀ i, r ∉ childrenOf s i := by
  intro i hc
  exact hr.2 i (lt_length_of_mem_childrenOf hc) hc

theorem isRoot_step {s : State T} {r : Nat} (hr : IsRoot s r) (op : Op T) :
    IsRoot (step s op) r := by
  cases op with
  | newRoot =>
    refine ⟨by rw [step, new_length]; have := hr.1; omega, ?_⟩
    intro i _ hc
    rw [step, childrenOf_new] at hc
    exact not_mem_childrenOf_of_isRoot hr i hc
  | pushOp h v =>
    rw [step]
    by_cases hh : h < s.nodes.length
    · rw [if_pos hh]
      refine ⟨by rw [push_length]; exact hr.1, ?_⟩
      intro i _ hc
      rw [childrenOf_push] at hc
      exact not_mem_childrenOf_of_isRoot hr i hc
    · rw [if_neg hh]
      exact hr
  | scopeOp h =>
    rw [step]
    by_cases hh : h < s.nodes.length
    · rw [if_pos hh]
      refine ⟨by rw [scope_length]; have := hr.1; omega, ?_⟩
      intro i _ hc
      by_cases hih : i = h
      · rw [hih, childrenOf_scope_self s h hh, List.mem_append] at hc
        rcases hc with hc | hc
        · exact not_mem_childrenOf_of_isRoot hr h hc
        · have := List.mem_singleton.1 hc
          have := hr.1
          omega
      · rw [childrenOf_scope_other s h i hih] at hc
        exact not_mem_childrenOf_of_isRoot hr i hc
    · rw [if_neg hh]
      exact hr

theorem desc_isRoot_eq {s : State T} {r1 r2 : Nat} (hroot : IsRoot s r2)
    (hd : Desc s r1 r2) : r1 = r2 := by
  by_contra hne
  rcases desc_parent hd hne with ⟨p, _, hc⟩
  exact not_mem_childrenOf_of_isRoot hroot p hc

theorem roots_disjoint {s : State T} (hInv : Inv s) {r1 r2 : Nat}
    (h1 : IsRoot s r1) (h2 : IsRoot s r2) (hne : r1 ≠ r2) {m : Nat}
    (hd1 : Desc s r1 m) (hd2 : Desc s r2 m) : False := by
  rcases desc_chain hInv hd1 hd2 with h | h
  · exact hne (desc_isRoot_eq h2 h)
  · exact hne (desc_isRoot_eq h1 h).symm

theorem siblings_disjoint {s : State T} (hInv : Inv s) {p c1 c2 : Nat}
    (hc1 : c1 ∈ childrenOf s p) (hc2 : c2 ∈ childrenOf s p) (hne : c1 ≠ c2) {m : Nat}
    (hd1 : Desc s c1 m) (hd2 : Desc s c2 m) : False := by
  rcases desc_chain hInv hd1 hd2 with h | h
  · rcases desc_parent h hne with ⟨q, hq, hcq⟩
    have hqp : q = p := hInv.parent_uniq hcq hc2
    have hle := desc_le hInv (hqp ▸ hq)
    have hlt := (hInv.child_bounds hc1).1
    omega
  · rcases desc_parent h (Ne.symm hne) with ⟨q, hq, hcq⟩
    have hqp : q = p := hInv.parent_uniq hcq hc1
    have hle := desc_le hInv (hqp ▸ hq)
    have hlt := (hInv.child_bounds hc2).1
    omega

/-! ### Sanity checks: the crate's doc example and tests -/

example : ScopedVec.iter exState 0 = [3, 4, 5, 6] := by decide

example : ScopedVec.iter exState 1 = [4, 5] := by decide

example : ScopedVec.iter exState 2 = [5] := by decide

example : ScopedVec.iter exState 3 = [6] := by decide

example : Inv exState := by decide

example : IsRoot exState2 0 ∧ IsRoot exState2 4 := by decide

example : ScopedVec.iter exState2 4 = [7] := by decide

/-! ### The claims -/

/-- Claim C1: on a well-formed heap, the sequence yielded by iter(H) is the
visible sequence of H — H's own elements in push order followed, in
child-creation order, by the visible sequence of each child, recursively: the
traversal satisfies the recursive specification VisibleSeq and is its unique
solution; in particular an empty node yields the empty sequence and a node
with elements but no children yields exactly its own elements. -/
theorem c1_iter_yields_visible_sequence (s : State T) (hInv : Inv s) (h : Nat)
    (hh : h < s.nodes.length) :
    VisibleSeq s h (ScopedVec.iter s h) ∧
    (∀ l, VisibleSeq s h l → l = ScopedVec.iter s h) ∧
    (∀ n, s.nodes[h]? = some n → n.inner = [] → n.children = [] →
      ScopedVec.iter s h = []) ∧
    (∀ n, s.nodes[h]? = some n → n.children = [] →
      ScopedVec.iter s h = n.inner) := by
  refine ⟨visibleSeq_iter hInv hh, fun l hl => visibleSeq_unique hInv hl, ?_, ?_⟩
  · intro n hg hi hc
    rw [iter_unfold hInv hg, hi, hc]
    rfl
  · intro n hg hc
    rw [iter_unfold hInv hg, hc]
    simp

theorem c1_witness :
    Inv exState ∧ 0 < exState.nodes.length ∧
      VisibleSeq exState 0 (ScopedVec.iter exState 0) :=
  ⟨by decide, by decide,
    (c1_iter_yields_visible_sequence exState (by decide) 0 (by decide)).1⟩

/-- Claim C3: on any reachable heap, a handle that is a strict descendant of
another is never an ancestor of it; every value yielded by iter(C) comes from
the elements of a node in C's own subtree; pushing to any node outside C's
subtree (in particular to C's parent, to any ancestor, or to a sibling or any
of its descendants) leaves iter(C) unchanged; and the subtrees of two distinct
children of the same parent are disjoint. -/
theorem c3_upward_and_sibling_isolation (s : State T) (hr : Reachable s) :
    (∀ p c, Desc s p c → p ≠ c → ¬ Desc s c p) ∧
    (∀ c (v : T), v ∈ ScopedVec.iter s c → ∃ m, Desc s c m ∧ v ∈ elemsOf s m) ∧
    (∀ c q (v : T), ¬ Desc s c q →
      ScopedVec.iter (ScopedVec.push s q v) c = ScopedVec.iter s c) ∧
    (∀ p c1 c2 m, c1 ∈ childrenOf s p → c2 ∈ childrenOf s p → c1 ≠ c2 →
      Desc s c1 m → ¬ Desc s c2 m) := by
  have hInv := reachable_inv hr
  refine ⟨?_, ?_, ?_, ?_⟩
  · intro p c hpc hne hcp
    have h1 := desc_le hInv hpc
    have h2 := desc_le hInv hcp
    omega
  · exact fun c v hv => mem_iter_imp hv
  · exact fun c q v hq => iter_push_frame v hq
  · intro p c1 c2 m h1 h2 hne hd1 hd2
    exact siblings_disjoint hInv h1 h2 hne hd1 hd2

theorem c3_witness : Reachable exState ∧ ¬ Desc exState 1 0 :=
  ⟨⟨exOps, rfl⟩,
    (c3_upward_and_sibling_isolation exState ⟨exOps, rfl⟩).1 0 1
      (desc_of_child (by decide)) (by decide)⟩

/-- Claim C4: a cloned handle aliases the same node rather than copying it:
pushing v through the clone makes v appear in the traversal of the original
handle (and vice versa), and in the traversal of every handle whose node
transitively contains this node in its children. -/
theorem c4_clone_aliases_same_node (s : State T) (hInv : Inv s) (h : Nat)
    (hh : h < s.nodes.length) (v : T) :
    v ∈ ScopedVec.iter (ScopedVec.push s (ScopedVec.clone h) v) h ∧
    v ∈ ScopedVec.iter (ScopedVec.push s h v) (ScopedVec.clone h) ∧
    (∀ g, Desc s g h → v ∈ ScopedVec.iter (ScopedVec.push s (ScopedVec.clone h) v) g) := by
  have hInv2 : Inv (ScopedVec.push s h v) := inv_push hInv h v
  have hv : v ∈ elemsOf (ScopedVec.push s h v) h := by
    rw [elemsOf_push_self s h v hh]
    exact List.mem_append_right _ (List.mem_singleton.2 rfl)
  refine ⟨?_, ?_, ?_⟩
  · exact elems_mem_iter hInv2 Desc.refl hv
  · exact elems_mem_iter hInv2 Desc.refl hv
  · intro g hg
    exact elems_mem_iter hInv2 (desc_push.2 hg) hv

theorem c4_witness :
    Inv exState ∧ 1 < exState.nodes.length ∧
      9 ∈ ScopedVec.iter (ScopedVec.push exState (ScopedVec.clone 1) 9) 1 :=
  ⟨by decide, by decide,
    (c4_clone_aliases_same_node exState (by decide) 1 (by decide) 9).1⟩

/-- Claim C5: scope(H) allocates a fresh node with empty elements and empty
children, appends its handle at the end of H's children (existing children
unchanged, in order), returns the fresh handle, and changes nothing else: H's
elements and every other node are untouched, and the heap grows by exactly one
node. -/
theorem c5_scope_effect (s : State T) (h : Nat) (hh : h < s.nodes.length) :
    (ScopedVec.scope s h).2 = s.nodes.length ∧
    (ScopedVec.scope s h).1.nodes[s.nodes.length]? = some ⟨[], []⟩ ∧
    childrenOf (ScopedVec.scope s h).1 h = childrenOf s h ++ [s.nodes.length] ∧
    elemsOf (ScopedVec.scope s h).1 h = elemsOf s h ∧
    (∀ j, j ≠ h → j < s.nodes.length →
      (ScopedVec.scope s h).1.nodes[j]? = s.nodes[j]?) ∧
    (ScopedVec.scope s h).1.nodes.length = s.nodes.length + 1 := by
  refine ⟨scope_handle s h, ?_, childrenOf_scope_self s h hh, elemsOf_scope s h h,
    ?_, scope_length s h⟩
  · rw [scope_getElem?, if_neg (by omega), new_getElem?_fresh]
  · intro j hj hjl
    rw [scope_getElem?, if_neg hj, new_getElem?_old s j hjl]

theorem c5_witness :
    0 < exState.nodes.length ∧
      childrenOf (ScopedVec.scope exState 0).1 0 =
        childrenOf exState 0 ++ [exState.nodes.length] :=
  ⟨by decide, (c5_scope_effect exState 0 (by decide)).2.2.1⟩

/-- Claim C6: push(H, v) appends v at the end of H's elements (existing
elements unchanged, in order) and changes nothing else: H's children, every
other node, and the heap size are untouched. -/
theorem c6_push_effect (s : State T) (h : Nat) (hh : h < s.nodes.length) (v : T) :
    elemsOf (ScopedVec.push s h v) h = elemsOf s h ++ [v] ∧
    childrenOf (ScopedVec.push s h v) h = childrenOf s h ∧
    (∀ j, j ≠ h → (ScopedVec.push s h v).nodes[j]? = s.nodes[j]?) ∧
    (ScopedVec.push s h v).nodes.length = s.nodes.length :=
  ⟨elemsOf_push_self s h v hh, childrenOf_push s h v h,
    fun j hj => by rw [push_getElem?, if_neg hj], push_length s h v⟩

theorem c6_witness :
    0 < exState.nodes.length ∧
      elemsOf (ScopedVec.push exState 0 9) 0 = elemsOf exState 0 ++ [9] :=
  ⟨by decide, (c6_push_effect exState 0 (by decide) 9).1⟩

/-- Claim C7: contains(H, v) returns true exactly when some element yielded by
iter(H) equals v, i.e. when v appears in H's visible sequence (own elements or
any descendant's); it is computed as any of the traversal with an equality
test, whose evaluation stops at the first match. -/
theorem c7_contains_iff_mem_iter [BEq T] [LawfulBEq T] (s : State T) (h : Nat) (v : T) :
    ScopedVec.contains s h v = true ↔ v ∈ ScopedVec.iter s h := by
  unfold ScopedVec.contains
  rw [List.any_eq_true]
  constructor
  · rintro ⟨x, hx, hxv⟩
    rw [beq_iff_eq] at hxv
    exact hxv ▸ hx
  · intro hv
    exact ⟨v, hv, beq_self_eq_true v⟩

theorem c7_witness :
    (ScopedVec.contains exState 0 5 = true ↔ 5 ∈ ScopedVec.iter exState 0) ∧
      ScopedVec.contains exState 0 5 = true :=
  ⟨c7_contains_iff_mem_iter exState 0 5, by decide⟩

/-- Claim C8: every reachable heap is a finite forest with no cycle — no node
is ever a descendant of one of its own children, hence never its own strict
descendant — and therefore the recursively defined visible sequence exists (is
total, and finite as a Lean list) for every allocated handle. -/
theorem c8_acyclic_and_total (s : State T) (hr : Reachable s) :
    (∀ h c, c ∈ childrenOf s h → ¬ Desc s c h) ∧
    (∀ h, h < s.nodes.length → ∃ l, VisibleSeq s h l) := by
  have hInv := reachable_inv hr
  constructor
  · intro h c hc hd
    have h1 := (hInv.child_bounds hc).1
    have h2 := desc_le hInv hd
    omega
  · exact fun h hh => ⟨ScopedVec.iter s h, visibleSeq_iter hInv hh⟩

theorem c8_witness :
    Reachable exState ∧ 0 < exState.nodes.length ∧ ∃ l, VisibleSeq exState 0 l :=
  ⟨⟨exOps, rfl⟩, by decide,
    (c8_acyclic_and_total exState ⟨exOps, rfl⟩).2 0 (by decide)⟩

/-- Claim C9: the operations are total — from any well-formed heap, new, push
and scope always produce a well-formed heap (no capacity limit, no invalid
argument, no contention failure: they are functions into states, not into an
error type), and the traversal is always defined: every allocated handle has a
visible sequence and iter computes it.  The only abnormal condition in the
source is a .unwrap() on a poisoned lock, a panic that aborts rather than a
value-level error, and it lies outside this pure model. -/
theorem c9_operations_total (s : State T) (hInv : Inv s) (op : Op T) :
    Inv (step s op) ∧
    (∀ h, h < s.nodes.length → ∃ l, VisibleSeq s h l ∧ ScopedVec.iter s h = l) :=
  ⟨inv_step hInv op, fun h hh => ⟨ScopedVec.iter s h, visibleSeq_iter hInv hh, rfl⟩⟩

theorem c9_witness :
    Inv exState ∧ Inv (step exState (Op.pushOp 0 9)) :=
  ⟨by decide, (c9_operations_total exState (by decide) (Op.pushOp 0 9)).1⟩

/-- Claim C10: two distinct root handles (nodes created by separate new()
calls, which no children list ever references) share no state: their subtrees
are disjoint, pushing to any node of one root's subtree leaves the other
root's traversal unchanged and its contains results unchanged, scoping a node
of one root's subtree likewise leaves the other root's traversal unchanged,
and both handles remain roots under every further operation. -/
theorem c10_separate_roots_independent [BEq T] (s : State T) (hr : Reachable s)
    (r1 r2 : Nat) (h1 : IsRoot s r1) (h2 : IsRoot s r2) (hne : r1 ≠ r2) :
    (∀ m, Desc s r1 m → ¬ Desc s r2 m) ∧
    (∀ q (v : T), Desc s r2 q →
      ScopedVec.iter (ScopedVec.push s q v) r1 = ScopedVec.iter s r1) ∧
    (∀ q (v w : T), Desc s r2 q →
      ScopedVec.contains (ScopedVec.push s q v) r1 w = ScopedVec.contains s r1 w) ∧
    (∀ q, Desc s r2 q →
      ScopedVec.iter (ScopedVec.scope s q).1 r1 = ScopedVec.iter s r1) ∧
    (∀ op, IsRoot (step s op) r1) := by
  have hInv := reachable_inv hr
  have hdisj : ∀ m, Desc s r1 m → ¬ Desc s r2 m := fun m hd1 hd2 =>
    roots_disjoint hInv h1 h2 hne hd1 hd2
  have hframe : ∀ q (v : T), Desc s r2 q →
      ScopedVec.iter (ScopedVec.push s q v) r1 = ScopedVec.iter s r1 := by
    intro q v hq
    exact iter_push_frame v (fun hd => hdisj q hd hq)
  refine ⟨hdisj, hframe, ?_, ?_, fun op => isRoot_step h1 op⟩
  · intro q v w hq
    unfold ScopedVec.contains
    rw [hframe q v hq]
  · intro q hq
    have hnd : ¬ Desc s r1 q := fun hd => hdisj q hd hq
    have hql : q < s.nodes.length := desc_lt_length hInv h2.1 hq
    exact iter_scope_frame hInv hql h1.1 hnd

theorem c10_witness :
    Reachable exState2 ∧ IsRoot exState2 0 ∧ IsRoot exState2 4 ∧
      ¬ Desc exState2 4 0 :=
  ⟨⟨exOps2, rfl⟩, by decide, by decide,
    (c10_separate_roots_independent exState2 ⟨exOps2, rfl⟩ 0 4
      (by decide) (by decide) (by decide)).1 0 Desc.refl⟩

end ScopedVecLib
